import Mathlib

/-!
Shallow embedding of the pitch-set analysis engine of `pctheory`
(`pctheory/pset.py`), together with proofs about it.

Modelled from the spec: the pitch element class itself (`pctheory/pitch.py`)
is not part of the analysed sources; per §3 of the spec a pitch element is an
integer `value` together with a variant (12- or 24-division pitch class, or
unbounded pitch), two elements are equal iff they have the same variant and
the same value, and the canonical ordering used by the analysis functions is
ascending by value.  A pitch-set is same-variant by precondition (§7), so a
pset is embedded as a `Finset ℤ` of element values, paired with a variant tag
where the source inspects element types.
-/

namespace PCTheory

/-- The variant (runtime type) of a pitch element: `pitch.Pitch12`,
`pitch.PitchClass12` or `pitch.PitchClass24`.  Modelled from the spec (§3):
the class definitions live outside the analysed sources. -/
inductive PType where
  | pitch12
  | pitchClass12
  | pitchClass24
deriving DecidableEq

/-- A pset whose element variant matters: the set of element values plus the
common variant of its elements (same-variant by precondition, spec §7). -/
structure PSet where
  variant : PType
  vals : Finset ℤ
deriving DecidableEq

/-- Errors the Python code can raise. -/
inductive PyErr where
  | typeError
deriving DecidableEq

/-- The canonically ordered element values of a pset: `pseg = list(pset);
pseg.sort()` sorts ascending (by value, spec §3). -/
def sortedVals (A : Finset ℤ) : List ℤ :=
  Finset.sort (· ≤ ·) A

/-- `p_ic_matrix(pset)` (pset.py lines 78-90): sort the elements ascending,
then fill an `n × n` grid with `mx[i][j] = abs(pseg[i].p - pseg[j].p)`.
The numpy float storage is modelled exactly, as integers. -/
def p_ic_matrix (A : Finset ℤ) : List (List ℤ) :=
  let pseg := sortedVals A
  (List.range pseg.length).map fun i =>
    (List.range pseg.length).map fun j => |pseg.getD i 0 - pseg.getD j 0|

/-- Reading cell `[i][j]` of a matrix built as a list of rows. -/
def mEntry (m : List (List ℤ)) (i j : ℕ) : ℤ :=
  (m.getD i []).getD j 0

theorem sortedVals_length (A : Finset ℤ) : (sortedVals A).length = A.card :=
  Finset.length_sort _

theorem mEntry_p_ic_matrix (A : Finset ℤ) (i j : ℕ)
    (hi : i < (sortedVals A).length) (hj : j < (sortedVals A).length) :
    mEntry (p_ic_matrix A) i j
      = |(sortedVals A).getD i 0 - (sortedVals A).getD j 0| := by
  have h1 : (p_ic_matrix A).getD i []
      = (List.range (sortedVals A).length).map
          (fun j => |(sortedVals A).getD i 0 - (sortedVals A).getD j 0|) := by
    unfold p_ic_matrix
    rw [List.getD_eq_getElem _ _ (by simpa using hi)]
    rw [List.getElem_map, List.getElem_range]
  unfold mEntry
  rw [h1, List.getD_eq_getElem _ _ (by simpa using hj)]
  rw [List.getElem_map, List.getElem_range]

/-- C1: for every non-empty pset `A`, the matrix `p_ic_matrix(A)` has
`cell[i][j] = |value_i - value_j|` over the ascending-sorted elements, is
symmetric (`cell[i][j] = cell[j][i]`), has zero diagonal (`cell[i][i] = 0`),
and every entry is nonnegative. -/
theorem p_ic_matrix_symmetric_zero_diag (A : Finset ℤ) (hA : A.Nonempty)
    (i j : ℕ) (hi : i < A.card) (hj : j < A.card) :
    mEntry (p_ic_matrix A) i j
        = |(sortedVals A).getD i 0 - (sortedVals A).getD j 0| ∧
    mEntry (p_ic_matrix A) i j = mEntry (p_ic_matrix A) j i ∧
    mEntry (p_ic_matrix A) i i = 0 ∧
    0 ≤ mEntry (p_ic_matrix A) i j := by
  have hi' : i < (sortedVals A).length := by rw [sortedVals_length]; exact hi
  have hj' : j < (sortedVals A).length := by rw [sortedVals_length]; exact hj
  refine ⟨mEntry_p_ic_matrix A i j hi' hj', ?_, ?_, ?_⟩
  · rw [mEntry_p_ic_matrix A i j hi' hj', mEntry_p_ic_matrix A j i hj' hi']
    exact abs_sub_comm _ _
  · rw [mEntry_p_ic_matrix A i i hi' hi']
    simp
  · rw [mEntry_p_ic_matrix A i j hi' hj']
    exact abs_nonneg _

/-- Witness for C1 at the concrete pset `{0, 1, 4}`, cell `[0][1]`. -/
theorem p_ic_matrix_symmetric_zero_diag_witness :
    mEntry (p_ic_matrix {0, 1, 4}) 0 1
        = |(sortedVals {0, 1, 4}).getD 0 0 - (sortedVals {0, 1, 4}).getD 1 0| ∧
    mEntry (p_ic_matrix {0, 1, 4}) 0 1 = mEntry (p_ic_matrix {0, 1, 4}) 1 0 ∧
    mEntry (p_ic_matrix {0, 1, 4}) 0 0 = 0 ∧
    0 ≤ mEntry (p_ic_matrix {0, 1, 4}) 0 1 :=
  p_ic_matrix_symmetric_zero_diag {0, 1, 4} ⟨0, by decide⟩ 0 1
    (by decide) (by decide)

/-- One Python-dictionary update of `p_ic_roster`: `if interval not in roster:
roster[interval] = 1 else: roster[interval] += 1`, on a dictionary embedded as
an association list with unique keys in insertion order. -/
def rosterAdd : List (ℤ × ℕ) → ℤ → List (ℤ × ℕ)
  | [], x => [(x, 1)]
  | (k, c) :: rest, x =>
      if k = x then (k, c + 1) :: rest else (k, c) :: rosterAdd rest x

/-- The intervals visited by the double loop of `p_ic_roster` (pset.py lines
102-104): `for i in range(len(pseg)-1, -1, -1): for j in range(i-1, -1, -1):
abs(pseg[i].p - pseg[j].p)`. -/
def icPairIntervals (pseg : List ℤ) : List ℤ :=
  ((List.range pseg.length).reverse).flatMap fun i =>
    ((List.range i).reverse).map fun j => |pseg.getD i 0 - pseg.getD j 0|

/-- `p_ic_roster(pset)` (pset.py lines 93-109): sort the elements ascending,
then count each pairwise interval in a dictionary. -/
def p_ic_roster (A : Finset ℤ) : List (ℤ × ℕ) :=
  (icPairIntervals (sortedVals A)).foldl rosterAdd []

/-- Sum of the counts stored in a roster. -/
def rosterSum (r : List (ℤ × ℕ)) : ℕ :=
  (r.map Prod.snd).sum

/-- The keys of a roster. -/
def rosterKeys (r : List (ℤ × ℕ)) : List ℤ :=
  r.map Prod.fst

theorem mem_sortedVals {A : Finset ℤ} {a : ℤ} : a ∈ sortedVals A ↔ a ∈ A :=
  Finset.mem_sort _

theorem sortedVals_nodup (A : Finset ℤ) : (sortedVals A).Nodup :=
  Finset.sort_nodup _ _

theorem rosterSum_cons (k : ℤ) (c : ℕ) (r : List (ℤ × ℕ)) :
    rosterSum ((k, c) :: r) = c + rosterSum r := by
  simp [rosterSum]

theorem rosterSum_rosterAdd (r : List (ℤ × ℕ)) (x : ℤ) :
    rosterSum (rosterAdd r x) = rosterSum r + 1 := by
  induction r with
  | nil => simp [rosterAdd, rosterSum]
  | cons kc rest ih =>
    obtain ⟨k, c⟩ := kc
    simp only [rosterAdd]
    split
    · rw [rosterSum_cons, rosterSum_cons]; omega
    · rw [rosterSum_cons, ih, rosterSum_cons]; omega

theorem rosterSum_foldl (l : List ℤ) (r : List (ℤ × ℕ)) :
    rosterSum (l.foldl rosterAdd r) = rosterSum r + l.length := by
  induction l generalizing r with
  | nil => simp
  | cons x t ih =>
    rw [List.foldl_cons, ih, rosterSum_rosterAdd, List.length_cons]
    omega

theorem list_range_sum_mul_two (n : ℕ) : (List.range n).sum * 2 = n * (n - 1) := by
  induction n with
  | zero => rfl
  | succ m ih =>
    rw [List.range_succ, List.sum_append]
    simp only [List.sum_cons, List.sum_nil]
    cases m with
    | zero => simp
    | succ k =>
      simp only [Nat.succ_sub_one] at ih ⊢
      nlinarith

theorem length_icPairIntervals (pseg : List ℤ) :
    (icPairIntervals pseg).length * 2 = pseg.length * (pseg.length - 1) := by
  unfold icPairIntervals
  rw [List.length_flatMap, List.map_reverse, List.sum_reverse]
  have hmap : (List.map
      (List.length ∘ fun i =>
        ((List.range i).reverse).map fun j => |pseg.getD i 0 - pseg.getD j 0|)
      (List.range pseg.length))
      = List.map (fun i => i) (List.range pseg.length) := by
    apply List.map_congr_left
    intro a _
    simp
  rw [hmap, List.map_id']
  exact list_range_sum_mul_two pseg.length

theorem mem_icPairIntervals {pseg : List ℤ} {k : ℤ}
    (hk : k ∈ icPairIntervals pseg) :
    ∃ i j, i < pseg.length ∧ j < i ∧ k = |pseg.getD i 0 - pseg.getD j 0| := by
  unfold icPairIntervals at hk
  rw [List.mem_flatMap] at hk
  obtain ⟨i, hi, hk⟩ := hk
  rw [List.mem_reverse, List.mem_range] at hi
  rw [List.mem_map] at hk
  obtain ⟨j, hj, hk⟩ := hk
  rw [List.mem_reverse, List.mem_range] at hj
  exact ⟨i, j, hi, hj, hk.symm⟩

theorem rosterKeys_rosterAdd {r : List (ℤ × ℕ)} {x k : ℤ}
    (h : k ∈ rosterKeys (rosterAdd r x)) : k ∈ rosterKeys r ∨ k = x := by
  induction r with
  | nil =>
    right
    simpa [rosterAdd, rosterKeys] using h
  | cons kc rest ih =>
    obtain ⟨k', c⟩ := kc
    simp only [rosterAdd] at h
    split at h
    · left
      simpa [rosterKeys] using h
    · rcases (by simpa [rosterKeys] using h : k = k' ∨ k ∈ rosterKeys (rosterAdd rest x)) with h' | h'
      · left; simp [rosterKeys, h']
      · rcases ih h' with h'' | h''
        · left; simp [rosterKeys] at h'' ⊢; right; exact h''
        · right; exact h''

theorem mem_rosterKeys_foldl {l : List ℤ} :
    ∀ {r : List (ℤ × ℕ)} {k : ℤ},
      k ∈ rosterKeys (l.foldl rosterAdd r) → k ∈ rosterKeys r ∨ k ∈ l := by
  induction l with
  | nil =>
    intro r k h
    left
    simpa using h
  | cons x t ih =>
    intro r k h
    rw [List.foldl_cons] at h
    rcases ih h with h' | h'
    · rcases rosterKeys_rosterAdd h' with h'' | h''
      · left; exact h''
      · right; simp [h'']
    · right; simp [h']

theorem rosterKeys_p_ic_roster {A : Finset ℤ} {k : ℤ}
    (h : k ∈ rosterKeys (p_ic_roster A)) : k ∈ icPairIntervals (sortedVals A) := by
  rcases mem_rosterKeys_foldl h with h' | h'
  · simp [rosterKeys] at h'
  · exact h'

theorem rosterSum_p_ic_roster (A : Finset ℤ) :
    rosterSum (p_ic_roster A) = A.card * (A.card - 1) / 2 := by
  have h1 := rosterSum_foldl (icPairIntervals (sortedVals A)) []
  have h2 := length_icPairIntervals (sortedVals A)
  rw [sortedVals_length] at h2
  unfold p_ic_roster
  rw [h1]
  have h0 : rosterSum ([] : List (ℤ × ℕ)) = 0 := rfl
  omega

/-- C2: for every non-empty pset `A` with `n = |A|`, the counts of
`p_ic_roster(A)` sum to `n*(n-1)/2`, and every key of the roster is the
absolute difference of some unordered pair of distinct elements of `A`. -/
theorem p_ic_roster_spec (A : Finset ℤ) (hA : A.Nonempty) :
    rosterSum (p_ic_roster A) = A.card * (A.card - 1) / 2 ∧
    ∀ k ∈ rosterKeys (p_ic_roster A), ∃ a ∈ A, ∃ b ∈ A, a ≠ b ∧ k = |a - b| := by
  constructor
  · exact rosterSum_p_ic_roster A
  · intro k hk
    obtain ⟨i, j, hi, hj, hk⟩ := mem_icPairIntervals (rosterKeys_p_ic_roster hk)
    have hj' : j < (sortedVals A).length := lt_trans hj hi
    refine ⟨(sortedVals A).getD i 0, ?_, (sortedVals A).getD j 0, ?_, ?_, hk⟩
    · rw [List.getD_eq_getElem _ _ hi]
      exact mem_sortedVals.mp (List.getElem_mem hi)
    · rw [List.getD_eq_getElem _ _ hj']
      exact mem_sortedVals.mp (List.getElem_mem hj')
    · intro hab
      rw [List.getD_eq_getElem _ _ hi, List.getD_eq_getElem _ _ hj'] at hab
      have := ((sortedVals_nodup A).getElem_inj_iff).mp hab
      omega

/-- Witness for C2 at the concrete pset `{0, 1, 4}`. -/
theorem p_ic_roster_spec_witness :
    rosterSum (p_ic_roster ({0, 1, 4} : Finset ℤ))
      = Finset.card ({0, 1, 4} : Finset ℤ)
          * (Finset.card ({0, 1, 4} : Finset ℤ) - 1) / 2 :=
  (p_ic_roster_spec {0, 1, 4} ⟨0, by decide⟩).1

/-- Python dictionary lookup `roster[ic]` (with `ic in roster` as `isSome`)
on the association-list embedding. -/
def rosterLookup : List (ℤ × ℕ) → ℤ → Option ℕ
  | [], _ => none
  | (k, c) :: rest, x => if k = x then some c else rosterLookup rest x

/-- One iteration of the `pm_similarity` loop (pset.py lines 156-161): if the
key is also in `roster2`, add the smaller of the two counts. -/
def sharedStep (r2 : List (ℤ × ℕ)) (acc : ℕ) (kc : ℤ × ℕ) : ℕ :=
  match rosterLookup r2 kc.1 with
  | some c2 => acc + (if kc.2 < c2 then kc.2 else c2)
  | none => acc

/-- The full `ic_shared` loop of `pm_similarity` over the keys of `roster1`. -/
def sharedCount (r1 r2 : List (ℤ × ℕ)) : ℕ :=
  r1.foldl (sharedStep r2) 0

/-- `pm_similarity(pset1, pset2, ic_roster1, ic_roster2)` (pset.py lines
141-162): the pair of the intersection cardinality and the shared interval
count, computing a roster whenever the corresponding argument is `None`. -/
def pm_similarity (pset1 pset2 : Finset ℤ)
    (ic_roster1 ic_roster2 : Option (List (ℤ × ℕ))) : ℕ × ℕ :=
  let cint := (pset1 ∩ pset2).card
  let r1 := match ic_roster1 with
    | none => p_ic_roster pset1
    | some r => r
  let r2 := match ic_roster2 with
    | none => p_ic_roster pset2
    | some r => r
  (cint, sharedCount r1 r2)

/-- The count stored for a key, `0` when absent. -/
def rosterCnt (r : List (ℤ × ℕ)) (k : ℤ) : ℕ :=
  (rosterLookup r k).getD 0

theorem rosterCnt_cons_self (k : ℤ) (c : ℕ) (t : List (ℤ × ℕ)) :
    rosterCnt ((k, c) :: t) k = c := by
  simp [rosterCnt, rosterLookup]

theorem rosterCnt_cons_ne {k k' : ℤ} (c : ℕ) (t : List (ℤ × ℕ)) (h : k ≠ k') :
    rosterCnt ((k, c) :: t) k' = rosterCnt t k' := by
  simp [rosterCnt, rosterLookup, h]

theorem rosterLookup_eq_none {r : List (ℤ × ℕ)} {k : ℤ}
    (h : k ∉ rosterKeys r) : rosterLookup r k = none := by
  induction r with
  | nil => rfl
  | cons kc t ih =>
    obtain ⟨k', c⟩ := kc
    simp only [rosterKeys, List.map_cons, List.mem_cons] at h
    push_neg at h
    simp only [rosterLookup]
    rw [if_neg (by simpa using (Ne.symm h.1))]
    exact ih (by simpa [rosterKeys] using h.2)

theorem sharedStep_add (r2 : List (ℤ × ℕ)) (acc : ℕ) (kc : ℤ × ℕ) :
    sharedStep r2 acc kc = acc + sharedStep r2 0 kc := by
  unfold sharedStep
  cases rosterLookup r2 kc.1 <;> simp

theorem foldl_sharedStep_add (r2 : List (ℤ × ℕ)) (l : List (ℤ × ℕ)) :
    ∀ acc : ℕ, l.foldl (sharedStep r2) acc = acc + l.foldl (sharedStep r2) 0 := by
  induction l with
  | nil => intro acc; simp
  | cons kc t ih =>
    intro acc
    rw [List.foldl_cons, List.foldl_cons, ih (sharedStep r2 acc kc),
        ih (sharedStep r2 0 kc), sharedStep_add]
    omega

theorem sharedCount_cons (kc : ℤ × ℕ) (t r2 : List (ℤ × ℕ)) :
    sharedCount (kc :: t) r2 = sharedStep r2 0 kc + sharedCount t r2 := by
  unfold sharedCount
  rw [List.foldl_cons, foldl_sharedStep_add r2 t (sharedStep r2 0 kc)]

theorem sharedStep_eq_min (r2 : List (ℤ × ℕ)) (k : ℤ) (c : ℕ) :
    sharedStep r2 0 (k, c) = min c (rosterCnt r2 k) := by
  unfold sharedStep rosterCnt
  cases h : rosterLookup r2 k with
  | none => simp
  | some c2 =>
    simp only [Option.getD_some]
    rw [Nat.min_def]
    by_cases hlt : c < c2
    · rw [if_pos hlt, if_pos (le_of_lt hlt)]
      omega
    · rw [if_neg hlt]
      by_cases hle : c ≤ c2
      · rw [if_pos hle]
        omega
      · rw [if_neg hle]
        omega

theorem rosterKeysNodup_rosterAdd {r : List (ℤ × ℕ)} {x : ℤ}
    (h : (rosterKeys r).Nodup) : (rosterKeys (rosterAdd r x)).Nodup := by
  induction r with
  | nil => simp [rosterAdd, rosterKeys]
  | cons kc t ih =>
    obtain ⟨k, c⟩ := kc
    simp only [rosterKeys, List.map_cons, List.nodup_cons] at h
    simp only [rosterAdd]
    split
    · simp only [rosterKeys, List.map_cons, List.nodup_cons]
      exact ⟨by simpa [rosterKeys] using h.1, by simpa [rosterKeys] using h.2⟩
    · simp only [rosterKeys, List.map_cons, List.nodup_cons]
      refine ⟨?_, by simpa [rosterKeys] using ih (by simpa [rosterKeys] using h.2)⟩
      intro hmem
      rcases rosterKeys_rosterAdd (by simpa [rosterKeys] using hmem) with h' | h'
      · exact h.1 (by simpa [rosterKeys] using h')
      · next hne => exact hne h'

theorem rosterKeysNodup_foldl (l : List ℤ) :
    ∀ {r : List (ℤ × ℕ)}, (rosterKeys r).Nodup →
      (rosterKeys (l.foldl rosterAdd r)).Nodup := by
  induction l with
  | nil => intro r h; simpa using h
  | cons x t ih =>
    intro r h
    rw [List.foldl_cons]
    exact ih (rosterKeysNodup_rosterAdd h)

theorem p_ic_roster_keys_nodup (A : Finset ℤ) :
    (rosterKeys (p_ic_roster A)).Nodup :=
  rosterKeysNodup_foldl _ (by simp [rosterKeys])

theorem sharedCount_eq_sum {r1 : List (ℤ × ℕ)} (h1 : (rosterKeys r1).Nodup)
    (r2 : List (ℤ × ℕ)) :
    sharedCount r1 r2
      = ∑ k ∈ (rosterKeys r1).toFinset, min (rosterCnt r1 k) (rosterCnt r2 k) := by
  induction r1 with
  | nil => simp [sharedCount, rosterKeys]
  | cons kc t ih =>
    obtain ⟨k, c⟩ := kc
    simp only [rosterKeys, List.map_cons, List.nodup_cons] at h1
    have hk : k ∉ (rosterKeys t).toFinset := by
      rw [List.mem_toFinset]
      simpa [rosterKeys] using h1.1
    rw [sharedCount_cons, sharedStep_eq_min, ih (by simpa [rosterKeys] using h1.2)]
    have hfs : (rosterKeys ((k, c) :: t)).toFinset
        = insert k (rosterKeys t).toFinset := by
      simp [rosterKeys]
    rw [hfs, Finset.sum_insert hk, rosterCnt_cons_self]
    congr 1
    apply Finset.sum_congr rfl
    intro k' hk'
    have hne : k ≠ k' := by
      intro he
      exact hk (he ▸ hk')
    rw [rosterCnt_cons_ne c t hne]

theorem rosterCnt_eq_zero_of_not_mem {r : List (ℤ × ℕ)} {k : ℤ}
    (h : k ∉ (rosterKeys r).toFinset) : rosterCnt r k = 0 := by
  rw [List.mem_toFinset] at h
  simp [rosterCnt, rosterLookup_eq_none h]

theorem sharedCount_eq_sum_union {r1 : List (ℤ × ℕ)} (h1 : (rosterKeys r1).Nodup)
    (r2 : List (ℤ × ℕ)) :
    sharedCount r1 r2
      = ∑ k ∈ (rosterKeys r1).toFinset ∪ (rosterKeys r2).toFinset,
          min (rosterCnt r1 k) (rosterCnt r2 k) := by
  rw [sharedCount_eq_sum h1 r2]
  apply Finset.sum_subset Finset.subset_union_left
  intro x _ hnx
  rw [rosterCnt_eq_zero_of_not_mem hnx]
  simp

theorem sharedCount_comm {r1 r2 : List (ℤ × ℕ)} (h1 : (rosterKeys r1).Nodup)
    (h2 : (rosterKeys r2).Nodup) : sharedCount r1 r2 = sharedCount r2 r1 := by
  rw [sharedCount_eq_sum_union h1 r2, sharedCount_eq_sum_union h2 r1,
      Finset.union_comm]
  apply Finset.sum_congr rfl
  intro k _
  rw [Nat.min_comm]

theorem sum_rosterCnt {r : List (ℤ × ℕ)} (h : (rosterKeys r).Nodup) :
    ∑ k ∈ (rosterKeys r).toFinset, rosterCnt r k = rosterSum r := by
  induction r with
  | nil => simp [rosterKeys, rosterSum]
  | cons kc t ih =>
    obtain ⟨k, c⟩ := kc
    simp only [rosterKeys, List.map_cons, List.nodup_cons] at h
    have hk : k ∉ (rosterKeys t).toFinset := by
      rw [List.mem_toFinset]
      simpa [rosterKeys] using h.1
    have hfs : (rosterKeys ((k, c) :: t)).toFinset
        = insert k (rosterKeys t).toFinset := by
      simp [rosterKeys]
    rw [hfs, Finset.sum_insert hk, rosterCnt_cons_self, rosterSum_cons]
    congr 1
    rw [← ih (by simpa [rosterKeys] using h.2)]
    apply Finset.sum_congr rfl
    intro k' hk'
    have hne : k ≠ k' := by
      intro he
      exact hk (he ▸ hk')
    rw [rosterCnt_cons_ne c t hne]

theorem sharedCount_self {r : List (ℤ × ℕ)} (h : (rosterKeys r).Nodup) :
    sharedCount r r = rosterSum r := by
  rw [sharedCount_eq_sum h r]
  rw [← sum_rosterCnt h]
  apply Finset.sum_congr rfl
  intro k _
  rw [Nat.min_self]

theorem pm_similarity_none_none (A B : Finset ℤ) :
    pm_similarity A B none none
      = ((A ∩ B).card, sharedCount (p_ic_roster A) (p_ic_roster B)) := rfl

/-- C9: for every pset `A` with `n = |A|`, `pm_similarity(A, A)` with no
precomputed rosters returns `(n, n*(n-1)/2)`. -/
theorem pm_similarity_self (A : Finset ℤ) :
    pm_similarity A A none none = (A.card, A.card * (A.card - 1) / 2) := by
  rw [pm_similarity_none_none, Finset.inter_self,
      sharedCount_self (p_ic_roster_keys_nodup A), rosterSum_p_ic_roster]

/-- C10: for all psets `A` and `B`, `pm_similarity(A, B)` with no precomputed
rosters equals `pm_similarity(B, A)`: both the shared-element count and the
shared-interval count are symmetric in the two arguments. -/
theorem pm_similarity_comm (A B : Finset ℤ) :
    pm_similarity A B none none = pm_similarity B A none none := by
  rw [pm_similarity_none_none, pm_similarity_none_none, Finset.inter_comm,
      sharedCount_comm (p_ic_roster_keys_nodup A) (p_ic_roster_keys_nodup B)]

/-- The expression `type(iter(next(pset)))` exactly as written in the source
(pset.py lines 37, 53, 134, 173, 207): `next` is applied to the set itself,
and a Python `set` is iterable but not an iterator, so `next(pset)` raises
`TypeError: 'set' object is not an iterator` before `iter` or `type` can run,
for empty and non-empty sets alike.  (The working idiom would have been
`type(next(iter(pset)))`.) -/
def typeOfIterNext (_pset : PSet) : Except PyErr PType :=
  Except.error PyErr.typeError

/-- `transpose(pset, n)` (pset.py lines 199-210): infer the element type via
`type(iter(next(pset)))`, then rebuild the set with every value increased by
`n`. -/
def transpose (pset : PSet) (n : ℤ) : Except PyErr PSet := do
  let t ← typeOfIterNext pset
  return { variant := t, vals := pset.vals.image fun p => p + n }

/-- `invert(pset)` (pset.py lines 46-56): infer the element type, then
rebuild the set with every value negated. -/
def invert (pset : PSet) : Except PyErr PSet := do
  let t ← typeOfIterNext pset
  return { variant := t, vals := pset.vals.image fun p => p * -1 }

/-- `pcint_class(pset)` (pset.py lines 126-138): sort, infer the modulus
(12 when the element type is `PitchClass12`, else 24), and return the
adjacent differences reduced modulo the modulus. -/
def pcint_class (pset : PSet) : Except PyErr (List ℤ) := do
  let pseg := sortedVals pset.vals
  let t ← typeOfIterNext pset
  let n : ℤ := if t = PType.pitchClass12 then 12 else 24
  return (List.range (pseg.length - 1)).map fun i =>
    (pseg.getD (i + 1) 0 - pseg.getD i 0) % n

/-- `fb_class(pset, p0)` (pset.py lines 29-43): infer the modulus, collect
`(p.p - p0) % n` over the set, sort ascending, and drop the first entry when
the list is non-empty. -/
def fb_class (pset : PSet) (p0 : ℤ) : Except PyErr (List ℤ) := do
  let t ← typeOfIterNext pset
  let n : ℤ := if t = PType.pitchClass12 then 12 else 24
  let intlist := ((sortedVals pset.vals).map fun p => (p - p0) % n).mergeSort
      fun a b => decide (a ≤ b)
  return if 0 < intlist.length then intlist.drop 1 else intlist

/-- Python's lexicographic ordering on lists of integers, as used by
`sub.sort()` in `subsets`. -/
def listLexLe : List ℤ → List ℤ → Bool
  | [], _ => true
  | _ :: _, [] => false
  | a :: as, b :: bs =>
      if a < b then true else if b < a then false else listLexLe as bs

/-- `subsets(pset)` (pset.py lines 165-183): for each index below `2^n`, use
the index's bits as an inclusion mask over the sorted elements, then sort the
resulting list of subsets.  (The inferred element type `t` is only used to
rebuild elements with the same values, so the value lists are unchanged.) -/
def subsets (pset : PSet) : Except PyErr (List (List ℤ)) := do
  let total := 2 ^ pset.vals.card
  let _t ← typeOfIterNext pset
  let pseg := sortedVals pset.vals
  let sub := (List.range total).map fun index =>
    (List.range pset.vals.card).filterMap fun i =>
      if index &&& (1 <<< i) ≠ 0 then some (pseg.getD i 0) else none
  return sub.mergeSort listLexLe

/-- C3: contrary to the claim that `subsets(A)` returns a sorted list of
exactly `2^n` distinct value-sequences, the source evaluates
`type(iter(next(pset)))`, which raises `TypeError` on every input; here it is
evaluated at the non-empty pset `{0, 1, 4}`. -/
theorem subsets_raises_typeError :
    subsets ⟨PType.pitch12, {0, 1, 4}⟩ = Except.error PyErr.typeError := rfl

/-- C4: contrary to the claim that `transpose` and `invert` fail only on the
empty set, both raise `TypeError` on the non-empty one-element pset `{0}` as
well, because `next` is applied to the set object itself. -/
theorem transpose_invert_raise_on_nonempty :
    transpose ⟨PType.pitch12, {0}⟩ 1 = Except.error PyErr.typeError ∧
    invert ⟨PType.pitch12, {0}⟩ = Except.error PyErr.typeError :=
  ⟨rfl, rfl⟩

/-- C5: contrary to the claim that `pcint_class` reduces adjacent differences
modulo the inferred modulus, the modulus inference `type(iter(next(pset)))`
raises `TypeError` on every input, here at the 12-division pset `{0, 4, 7}`. -/
theorem pcint_class_raises_typeError :
    pcint_class ⟨PType.pitchClass12, {0, 4, 7}⟩ = Except.error PyErr.typeError :=
  rfl

/-- C6: contrary to the claim that `fb_class({0,4,7}, 0) = [4, 7]`, the call
raises `TypeError` before computing any interval. -/
theorem fb_class_raises_typeError :
    fb_class ⟨PType.pitchClass12, {0, 4, 7}⟩ 0 = Except.error PyErr.typeError :=
  rfl

/-- C7: contrary to the claim that `transpose(transpose(A, m), n)` equals
`transpose(A, m+n)` as sets of values, neither side produces a set: at
`A = {0}`, `m = 1`, `n = 2` both computations raise `TypeError`. -/
theorem transpose_transpose_raises :
    (do
      let B ← transpose ⟨PType.pitch12, {0}⟩ 1
      transpose B 2) = Except.error PyErr.typeError ∧
    transpose ⟨PType.pitch12, {0}⟩ 3 = Except.error PyErr.typeError :=
  ⟨rfl, rfl⟩

/-- C8: contrary to the claim that `invert(invert(A))` equals `A`, the inner
call already raises `TypeError` at the non-empty pset `A = {0}`, so no set is
ever returned. -/
theorem invert_invert_raises :
    (do
      let B ← invert ⟨PType.pitch12, {0}⟩
      invert B) = Except.error PyErr.typeError := rfl

end PCTheory
